import Mathlib

/-!
Verification development for the riverrun traffic-obfuscation transport
(`riverrun.go`).  The connection construction hardcodes
`compressedBlockBits = 16`, `expandedBlockBits = 32` and
`expandedBlockBits8 = 16`, so the transform is embedded at those widths:
each 16-bit group of the compressed-domain input is replaced by a 32-bit
codeword from `table16`, and a trailing single byte is replaced by a
16-bit codeword from `table8`.  Bytes are modelled as natural numbers
below 256, tables as functions on naturals, and the write/read-direction
keystreams as functions from stream position to byte, consumed in
lockstep by the two sides.
-/

namespace Riverrun

/-- Modelled from the spec: `ctstretch.ExpandedNBytes` (package
`common/ctstretch` is not under `src/`).  Expansion size law in bytes:
`ceil(n * expandedBits / compressedBits)`. -/
def ExpandedNBytes (n cbits ebits : Nat) : Nat := (n * ebits + (cbits - 1)) / cbits

/-- Modelled from the spec: `ctstretch.CompressedNBytes`, the inverse size
law `ceil(n * compressedBits / expandedBits)` used by the decoder. -/
def CompressedNBytes (n ebits cbits : Nat) : Nat := (n * cbits + (ebits - 1)) / ebits

/-- Modelled from the spec: `ctstretch.CompressedNBytes_floor`, the
floor-division variant used by the Encoder to bound the payload length. -/
def CompressedNBytes_floor (n ebits cbits : Nat) : Nat := n * cbits / ebits

/-- Modelled from the spec: `ctstretch.ExpandBytes` at the hardcoded widths
16/32.  The input is processed as 16-bit groups: two consecutive bytes are
masked with the keystream (the auxiliary randomness that must advance in
lockstep with the peer), the resulting 16-bit value is looked up in
`table16`, and the 32-bit codeword is emitted big-endian.  A trailing
partial group (a single byte) is encoded through the 8-bit table into a
16-bit codeword instead.  `i` is the keystream position. -/
def ExpandBytes (t16 t8 : Nat → Nat) (ks : Nat → Nat) : Nat → List Nat → List Nat
  | _, [] => []
  | i, [b] =>
      let c := t8 (b ^^^ ks i)
      [c / 256 % 256, c % 256]
  | i, b1 :: b2 :: rest =>
      let c := t16 ((b1 ^^^ ks i) * 256 + (b2 ^^^ ks (i + 1)))
      c / 16777216 % 256 :: c / 65536 % 256 :: c / 256 % 256 :: c % 256 ::
        ExpandBytes t16 t8 ks (i + 2) rest

/-- Modelled from the spec: `ctstretch.CompressBytes` at widths 16/32, the
exact inverse of `ExpandBytes`.  Four bytes at a time are reassembled into
a 32-bit codeword and looked up in the reverse 16-bit table; a trailing
pair of bytes is a 16-bit codeword for the reverse 8-bit table; a codeword
absent from the reverse table, or a byte count that is not a whole number
of codewords, is a decode error (`none`), never a silent truncation. -/
def CompressBytes (r16 r8 : Nat → Option Nat) (ks : Nat → Nat) : Nat → List Nat → Option (List Nat)
  | _, [] => some []
  | i, [c1, c2] =>
      match r8 (c1 * 256 + c2) with
      | none => none
      | some v => some [v ^^^ ks i]
  | _, [_] => none
  | _, [_, _, _] => none
  | i, c1 :: c2 :: c3 :: c4 :: rest =>
      match r16 (((c1 * 256 + c2) * 256 + c3) * 256 + c4) with
      | none => none
      | some v =>
        match CompressBytes r16 r8 ks (i + 2) rest with
        | none => none
        | some l => some ((v / 256 ^^^ ks i) :: (v % 256 ^^^ ks (i + 1)) :: l)

/-- Induction on a list two elements at a time, following the group
structure of the transform. -/
theorem list_pair_induction {α : Type} {P : List α → Prop} (h0 : P []) (h1 : ∀ b, P [b])
    (h2 : ∀ b1 b2 rest, P rest → P (b1 :: b2 :: rest)) : ∀ l, P l
  | [] => h0
  | [b] => h1 b
  | b1 :: b2 :: rest => h2 b1 b2 rest (list_pair_induction h0 h1 h2 rest)

/-- The expanded output of `ExpandBytes` has exactly twice as many bytes as
its input, matching the 16-to-32-bit size law. -/
theorem length_ExpandBytes (t16 t8 : Nat → Nat) (ks : Nat → Nat) :
    ∀ src : List Nat, ∀ i : Nat, (ExpandBytes t16 t8 ks i src).length = 2 * src.length := by
  intro src
  induction src using list_pair_induction with
  | h0 => intro i; simp [ExpandBytes]
  | h1 b => intro i; simp [ExpandBytes]
  | h2 b1 b2 rest ih =>
      intro i
      simp only [ExpandBytes, List.length_cons, ih, List.length]
      omega

/-- The size law specialised to the hardcoded widths: expansion doubles the
byte count. -/
theorem ExpandedNBytes_16_32 (n : Nat) : ExpandedNBytes n 16 32 = 2 * n := by
  simp only [ExpandedNBytes]
  omega

/-- The decoder's size law at the hardcoded widths: half the byte count,
rounded up. -/
theorem CompressedNBytes_32_16 (n : Nat) : CompressedNBytes n 32 16 = (n + 1) / 2 := by
  simp only [CompressedNBytes]
  omega

/-- Round-trip of the transform: with forward tables on the expand side,
their exact inverses on the compress side, and the keystreams in lockstep
(same keystream function, same starting position), `CompressBytes`
recovers every compressed-domain input from its `ExpandBytes` image. -/
theorem CompressBytes_ExpandBytes (t16 t8 : Nat → Nat) (r16 r8 : Nat → Option Nat)
    (ks : Nat → Nat)
    (ht16 : ∀ v, v < 65536 → t16 v < 4294967296 ∧ r16 (t16 v) = some v)
    (ht8 : ∀ v, v < 256 → t8 v < 65536 ∧ r8 (t8 v) = some v)
    (hks : ∀ j, ks j < 256) :
    ∀ src : List Nat, (∀ b ∈ src, b < 256) → ∀ i : Nat,
      CompressBytes r16 r8 ks i (ExpandBytes t16 t8 ks i src) = some src := by
  intro src
  induction src using list_pair_induction with
  | h0 => intro _ i; simp [ExpandBytes, CompressBytes]
  | h1 b =>
      intro hb i
      have hblt : b < 256 := hb b (by simp)
      have hx : b ^^^ ks i < 256 := by
        have := Nat.xor_lt_two_pow (n := 8) (by simpa using hblt) (by simpa using hks i)
        simpa using this
      obtain ⟨hc, hr⟩ := ht8 (b ^^^ ks i) hx
      simp only [ExpandBytes, CompressBytes]
      have hre : t8 (b ^^^ ks i) / 256 % 256 * 256 + t8 (b ^^^ ks i) % 256 = t8 (b ^^^ ks i) := by
        omega
      rw [hre, hr]
      simp [Nat.xor_cancel_right]
  | h2 b1 b2 rest ih =>
      intro hb i
      have hb1 : b1 < 256 := hb b1 (by simp)
      have hb2 : b2 < 256 := hb b2 (by simp)
      have hx1 : b1 ^^^ ks i < 256 := by
        have := Nat.xor_lt_two_pow (n := 8) (by simpa using hb1) (by simpa using hks i)
        simpa using this
      have hx2 : b2 ^^^ ks (i + 1) < 256 := by
        have := Nat.xor_lt_two_pow (n := 8) (by simpa using hb2) (by simpa using hks (i + 1))
        simpa using this
      have hv : (b1 ^^^ ks i) * 256 + (b2 ^^^ ks (i + 1)) < 65536 := by omega
      obtain ⟨hc, hr⟩ := ht16 ((b1 ^^^ ks i) * 256 + (b2 ^^^ ks (i + 1))) hv
      simp only [ExpandBytes, CompressBytes]
      set c := t16 ((b1 ^^^ ks i) * 256 + (b2 ^^^ ks (i + 1))) with hcdef
      have hre : ((c / 16777216 % 256 * 256 + c / 65536 % 256) * 256 + c / 256 % 256) * 256
          + c % 256 = c := by omega
      rw [hre, hr, ih (fun b hbm => hb b (by simp [hbm])) (i + 2)]
      have hd : ((b1 ^^^ ks i) * 256 + (b2 ^^^ ks (i + 1))) / 256 = b1 ^^^ ks i := by omega
      have hm : ((b1 ^^^ ks i) * 256 + (b2 ^^^ ks (i + 1))) % 256 = b2 ^^^ ks (i + 1) := by
        omega
      simp [hd, hm, Nat.xor_cancel_right]

/-- Modelled from the spec: `f.LengthLength`, the pre-expansion size of the
framing length field (package `common/framing` is not under `src/`): the
length field, before expansion, is a 2-byte big-endian unsigned integer. -/
def f_LengthLength : Nat := 2

/-- The single defined packet type (`PacketTypePayload = iota` in the
source). -/
def PacketTypePayload : Nat := 0

namespace riverrunEncoder

/-- `riverrunEncoder.encode` (src/riverrun.go lines 234-244): the frame
payload bytes are the `ctstretch.ExpandBytes` image of the packet payload
under the encoder's forward tables and write-direction keystream; the
returned count is the expanded byte count.  `pos` is the current keystream
position. -/
def encode (t16 t8 : Nat → Nat) (ks : Nat → Nat) (pos : Nat) (payload : List Nat) : List Nat :=
  ExpandBytes t16 t8 ks pos payload

/-- `riverrunEncoder.processLength` (src/riverrun.go lines 226-232):
big-endian-encode the 16-bit length into `f.LengthLength = 2` bytes, then
expand those bytes through the transform. -/
def processLength (t16 t8 : Nat → Nat) (ks : Nat → Nat) (pos : Nat) (length : Nat) : List Nat :=
  ExpandBytes t16 t8 ks pos [length / 256 % 256, length % 256]

/-- `encoder.LengthLength` as set in `newRiverrunEncoder`
(src/riverrun.go line 208): the expanded byte size of the length field. -/
def LengthLength : Nat := ExpandedNBytes f_LengthLength 16 32

/-- `encoder.MaxPacketPayloadLength` as set in `newRiverrunEncoder`
(src/riverrun.go line 207), with the externally supplied
`f.MaximumSegmentLength` constant as a parameter. -/
def MaxPacketPayloadLength (MaximumSegmentLength : Nat) : Nat :=
  CompressedNBytes_floor (MaximumSegmentLength - ExpandedNBytes f_LengthLength 16 32) 32 16

/-- Outcome of a Go call that either returns a value or aborts the process
via `panic`. -/
inductive GoCall (α : Type) where
  | ok (val : α)
  | panicked (msg : String)
deriving DecidableEq

/-- `riverrunEncoder.makePayload` (src/riverrun.go lines 245-250): panics
for any packet type other than `PacketTypePayload`, otherwise returns the
payload bytes unchanged. -/
def makePayload (pktType : Nat) (payload : List Nat) : GoCall (List Nat) :=
  if pktType ≠ PacketTypePayload then
    GoCall.panicked "BUG: pktType was not packetTypePayload for Riverrun"
  else GoCall.ok payload

end riverrunEncoder

namespace riverrunDecoder

/-- `decoder.LengthLength` as set in `newRiverrunDecoder`
(src/riverrun.go line 272). -/
def LengthLength : Nat := ExpandedNBytes f_LengthLength 16 32

/-- `riverrunDecoder.decodePayload` (src/riverrun.go lines 322-341): the
frame bytes delivered by the framing scaffold's `GetFrame` are compressed
through the reverse tables with the read-direction keystream into a buffer
of `CompressedNBytes frameLen` bytes; a compression error is propagated. -/
def decodePayload (r16 r8 : Nat → Option Nat) (ks : Nat → Nat) (pos : Nat)
    (frame : List Nat) : Option (List Nat) :=
  match CompressBytes r16 r8 ks pos frame with
  | none => none
  | some decodedPayload =>
      if decodedPayload.length = CompressedNBytes frame.length 32 16 then some decodedPayload
      else none

end riverrunDecoder

/-- C1: with encoder and decoder built from the same key/bit-width
configuration — forward tables on the encode side, their exact inverses on
the decode side, and the write/read keystreams in lockstep —
`riverrunDecoder.decodePayload` applied to the frame bytes produced by
`riverrunEncoder.encode` yields exactly the original payload, for every
payload of length between 1 and `MaxPacketPayloadLength`. -/
theorem decodePayload_encode_roundtrip (t16 t8 : Nat → Nat) (r16 r8 : Nat → Option Nat)
    (ks : Nat → Nat) (pos : Nat) (payload : List Nat) (MaximumSegmentLength : Nat)
    (ht16 : ∀ v, v < 65536 → t16 v < 4294967296 ∧ r16 (t16 v) = some v)
    (ht8 : ∀ v, v < 256 → t8 v < 65536 ∧ r8 (t8 v) = some v)
    (hks : ∀ j, ks j < 256)
    (hbytes : ∀ b ∈ payload, b < 256)
    (hlen1 : 1 ≤ payload.length)
    (hlen2 : payload.length ≤ riverrunEncoder.MaxPacketPayloadLength MaximumSegmentLength) :
    riverrunDecoder.decodePayload r16 r8 ks pos
      (riverrunEncoder.encode t16 t8 ks pos payload) = some payload := by
  unfold riverrunDecoder.decodePayload riverrunEncoder.encode
  rw [CompressBytes_ExpandBytes t16 t8 r16 r8 ks ht16 ht8 hks payload hbytes pos]
  have hlen := length_ExpandBytes t16 t8 ks payload pos
  dsimp only
  rw [if_pos (by rw [hlen, CompressedNBytes_32_16]; omega)]

/-- Witness for C1 at a concrete configuration: identity tables, zero
keystream, the odd-length payload `[1, 2, 3]` (which exercises both the
16-bit and the trailing 8-bit group) and segment budget 1448. -/
theorem decodePayload_encode_roundtrip_witness :
    1 ≤ ([1, 2, 3] : List Nat).length ∧
    ([1, 2, 3] : List Nat).length ≤ riverrunEncoder.MaxPacketPayloadLength 1448 ∧
    riverrunDecoder.decodePayload some some (fun _ => 0) 0
      (riverrunEncoder.encode id id (fun _ => 0) 0 [1, 2, 3]) = some [1, 2, 3] :=
  ⟨by decide, by decide,
    decodePayload_encode_roundtrip id id some some (fun _ => 0) 0 [1, 2, 3] 1448
      (fun v hv => ⟨by simpa using (by omega : v < 4294967296), rfl⟩)
      (fun v hv => ⟨by simpa using (by omega : v < 65536), rfl⟩)
      (fun j => by norm_num) (by decide) (by decide) (by decide)⟩

/-- C5: `processLength` first big-endian-encodes the 16-bit length into
`f.LengthLength = 2` bytes and then expands those 2 bytes through the
transform, and the expanded length-field prefix always has exactly
`ExpandedNBytes f.LengthLength` bytes — the pure function of the
configured bit widths that `newRiverrunEncoder` stores as
`encoder.LengthLength` and `newRiverrunDecoder` stores as its own
`LengthLength`. -/
theorem processLength_size (t16 t8 : Nat → Nat) (ks : Nat → Nat) (pos length : Nat) :
    riverrunEncoder.processLength t16 t8 ks pos length =
      ExpandBytes t16 t8 ks pos [length / 256 % 256, length % 256] ∧
    (riverrunEncoder.processLength t16 t8 ks pos length).length =
      ExpandedNBytes f_LengthLength 16 32 ∧
    riverrunEncoder.LengthLength = ExpandedNBytes f_LengthLength 16 32 ∧
    riverrunDecoder.LengthLength = riverrunEncoder.LengthLength := by
  refine ⟨rfl, ?_, rfl, rfl⟩
  rw [riverrunEncoder.processLength, length_ExpandBytes]
  norm_num [ExpandedNBytes, f_LengthLength]

/-- C6: `MaxPacketPayloadLength` is computed by floor division
(`CompressedNBytes_floor`) so that for every payload of length at most
`MaxPacketPayloadLength`, the expanded size of the length field plus the
expanded size of the payload never exceeds the externally supplied
`MaximumSegmentLength` (any segment budget that can hold at least the
expanded length field). -/
theorem MaxPacketPayloadLength_bound (MaximumSegmentLength len : Nat)
    (hMSL : ExpandedNBytes f_LengthLength 16 32 ≤ MaximumSegmentLength)
    (hlen : len ≤ riverrunEncoder.MaxPacketPayloadLength MaximumSegmentLength) :
    ExpandedNBytes f_LengthLength 16 32 + ExpandedNBytes len 16 32 ≤ MaximumSegmentLength := by
  revert hMSL hlen
  simp only [riverrunEncoder.MaxPacketPayloadLength, CompressedNBytes_floor,
    ExpandedNBytes, f_LengthLength]
  omega

/-- Witness for C6 at the boundary: with a segment budget of 1448 bytes the
maximum payload length is 722, and a 722-byte payload expands to exactly
1444 bytes, which together with the 4-byte expanded length field fills the
budget exactly. -/
theorem MaxPacketPayloadLength_bound_witness :
    ExpandedNBytes f_LengthLength 16 32 ≤ 1448 ∧
    722 ≤ riverrunEncoder.MaxPacketPayloadLength 1448 ∧
    ExpandedNBytes f_LengthLength 16 32 + ExpandedNBytes 722 16 32 ≤ 1448 :=
  ⟨by decide, by decide, MaxPacketPayloadLength_bound 1448 722 (by decide) (by decide)⟩

/-- C2 counterexample: requesting packet type 1 (any value other than
`PacketTypePayload`) from the Encoder's `makePayload` aborts via `panic`
rather than returning an error — the function's signature has no error
result at all. -/
theorem makePayload_panics_on_bad_type :
    riverrunEncoder.makePayload 1 [] =
      riverrunEncoder.GoCall.panicked "BUG: pktType was not packetTypePayload for Riverrun" := by
  decide

/-- C2 amended: for every packet type other than `PacketTypePayload`,
`makePayload` aborts the process via `panic` with a BUG message (it does
not return an error — it has no error result); for `PacketTypePayload` it
returns the payload bytes unchanged. -/
theorem makePayload_spec (pktType : Nat) (payload : List Nat)
    (h : pktType ≠ PacketTypePayload) :
    riverrunEncoder.makePayload pktType payload =
      riverrunEncoder.GoCall.panicked "BUG: pktType was not packetTypePayload for Riverrun" ∧
    riverrunEncoder.makePayload PacketTypePayload payload =
      riverrunEncoder.GoCall.ok payload := by
  constructor
  · simp [riverrunEncoder.makePayload, h]
  · simp [riverrunEncoder.makePayload]

/-- Witness for the amended C2 at packet type 1 and payload `[5]`. -/
theorem makePayload_spec_witness :
    (1 : Nat) ≠ PacketTypePayload ∧
    riverrunEncoder.makePayload 1 [5] =
      riverrunEncoder.GoCall.panicked "BUG: pktType was not packetTypePayload for Riverrun" ∧
    riverrunEncoder.makePayload PacketTypePayload [5] = riverrunEncoder.GoCall.ok [5] :=
  ⟨by decide, makePayload_spec 1 [5] (by decide)⟩

/-! ### Lock/event trace of `getTables`

`getTables` (src/riverrun.go lines 135-179) is straight-line code whose
only branching is on the two cache hits; its sequence of mutex operations,
cache lookups, table building and cache insertions is transcribed below as
an event trace per branch, so that lock-discipline properties become
decidable facts about the traces. -/

inductive TableEv where
  | lock
  | unlock
  | cacheLookup
  | build
  | cacheInsert
deriving DecidableEq

/-- The tail of `getTables` on a cache miss (lines 159-178): tables are
built with the mutex released, then the mutex is taken once to insert both
`cache8[key]` and `cache16[key]`. -/
def buildAndInsertTail : List TableEv :=
  [TableEv.build, TableEv.lock, TableEv.cacheInsert, TableEv.cacheInsert, TableEv.unlock]

/-- Event trace of `getTables` (src/riverrun.go lines 135-179), by branch:
the cache-initialisation critical section (lines 137-144), the `cache8`
lookup section (146-148), on a hit the `cache16` lookup section (150-152),
and — unless both lookups hit — the unlocked build followed by the insert
section. -/
def getTablesTrace (hit8 hit16 : Bool) : List TableEv :=
  [TableEv.lock, TableEv.unlock] ++
    [TableEv.lock, TableEv.cacheLookup, TableEv.unlock] ++
    (if hit8 then
      [TableEv.lock, TableEv.cacheLookup, TableEv.unlock] ++
        (if hit16 then [] else buildAndInsertTail)
    else buildAndInsertTail)

/-- The events of a trace up to (not including) the first occurrence of
`e`. -/
def upToFirst (e : TableEv) (tr : List TableEv) : List TableEv :=
  tr.takeWhile (fun x => x ≠ e)

/-- The events of a trace strictly after the first occurrence of `e`. -/
def afterFirst (e : TableEv) : List TableEv → List TableEv
  | [] => []
  | x :: rest => if x = e then rest else afterFirst e rest

/-- The claim's atomicity property for a trace that looks up and inserts:
between the first cache lookup and the first cache insertion the mutex is
never released, i.e. check-then-create is one critical section. -/
def checkThenCreateAtomic (tr : List TableEv) : Prop :=
  TableEv.unlock ∉ upToFirst TableEv.cacheInsert (afterFirst TableEv.cacheLookup tr)

instance (tr : List TableEv) : Decidable (checkThenCreateAtomic tr) := by
  unfold checkThenCreateAtomic
  infer_instance

/-- Each event of a trace paired with the number of locks held when it
occurs (the running lock depth). -/
def eventsWithDepth : Nat → List TableEv → List (TableEv × Nat)
  | _, [] => []
  | d, TableEv.lock :: r => (TableEv.lock, d) :: eventsWithDepth (d + 1) r
  | d, TableEv.unlock :: r => (TableEv.unlock, d) :: eventsWithDepth (d - 1) r
  | d, e :: r => (e, d) :: eventsWithDepth d r

/-- C3 counterexample: on a `cache8` miss (the fresh-key path) the
`getTables` trace contains both a cache lookup and a cache insertion, yet
the mutex is released between them — the check-then-create sequence is
not a single atomic critical section, so two concurrent callers with the
same key can both miss, both build, and race to insert. -/
theorem getTables_not_atomic :
    TableEv.cacheLookup ∈ getTablesTrace false false ∧
    TableEv.cacheInsert ∈ getTablesTrace false false ∧
    ¬ checkThenCreateAtomic (getTablesTrace false false) := by
  decide

/-- C3 amended: every cache lookup and every cache insertion in `getTables`
happens while the mutex is held, but on a miss the table build happens at
lock depth 0 (mutex released) and the lookup and the insertion lie in two
separate critical sections; the two tables are nevertheless inserted
together inside one critical section, so no caller ever observes a partial
`(table8, table16)` pair. -/
theorem getTables_locking :
    (∀ h8 h16 : Bool, ∀ p ∈ eventsWithDepth 0 (getTablesTrace h8 h16),
      (p.1 = TableEv.cacheLookup ∨ p.1 = TableEv.cacheInsert) → 1 ≤ p.2) ∧
    (TableEv.build, 0) ∈ eventsWithDepth 0 (getTablesTrace false false) ∧
    ¬ checkThenCreateAtomic (getTablesTrace false false) ∧
    upToFirst TableEv.unlock (afterFirst TableEv.cacheInsert (getTablesTrace false false)) =
      [TableEv.cacheInsert] := by
  decide

/-- `Conn.nextLength` (src/riverrun.go lines 347-356), with the
half-normal noise magnitude abstracted as a draw sequence: `draw i` models
`int(|rand.NormFloat64() * rr.mss_dev|)` for the i-th draw (a nonnegative
truncated integer).  The source recurses with no retry bound whenever the
draw is at least `mss_max`; `fuel` counts recursion steps in the
embedding, with `none` meaning the recursion is still running after
`fuel` steps. -/
def nextLength (mss_max : Int) (draw : Nat → Nat) : Nat → Nat → Option Int
  | _, 0 => none
  | i, fuel + 1 =>
      if mss_max ≤ (draw i : Int) then nextLength mss_max draw (i + 1) fuel
      else some (mss_max - (draw i : Int))

/-- The recursion in `nextLength` never returns for these parameters, at
any recursion depth. -/
def nextLengthNeverReturns (mss_max : Int) (draw : Nat → Nat) : Prop :=
  ∀ fuel i, nextLength mss_max draw i fuel = none

/-- C4 counterexample: for `mss_max = 0` every draw satisfies the re-draw
condition `int(noise) >= mss_max`, so `nextLength` recurses forever — the
re-draw is unbounded recursion, not a bounded retry, and for this
`max_target` the sampler does not terminate at all. -/
theorem nextLength_unbounded_recursion : nextLengthNeverReturns 0 (fun _ => 0) := by
  intro fuel
  induction fuel with
  | zero => intro i; rfl
  | succ n ih => intro i; simp [nextLength, ih]

/-- C4 amended: `nextLength` is an unbounded reject-and-recurse sampler
(no retry cap), and whenever it does return — i.e. some draw's truncated
noise magnitude falls below `mss_max` — the returned value lies in the
interval `(0, mss_max]`. -/
theorem nextLength_range (mss_max : Int) (draw : Nat → Nat) (i fuel : Nat) (v : Int)
    (h : nextLength mss_max draw i fuel = some v) : 0 < v ∧ v ≤ mss_max := by
  induction fuel generalizing i with
  | zero => exact absurd h (by simp [nextLength])
  | succ n ih =>
      rw [nextLength] at h
      by_cases hc : mss_max ≤ (draw i : Int)
      · rw [if_pos hc] at h
        exact ih (i + 1) h
      · rw [if_neg hc] at h
        have hv : v = mss_max - (draw i : Int) := by
          simpa using h.symm
        have hnn : (0 : Int) ≤ (draw i : Int) := Int.natCast_nonneg _
        constructor <;> omega

/-- Witness for the amended C4: with `mss_max = 600` and a first draw of
noise magnitude 100 the sampler returns 500, which lies in `(0, 600]`. -/
theorem nextLength_range_witness :
    nextLength 600 (fun _ => 100) 0 1 = some 500 ∧ (0 : Int) < 500 ∧ (500 : Int) ≤ 600 :=
  ⟨by decide, nextLength_range 600 (fun _ => 100) 0 1 500 (by decide)⟩

/-! ### `Conn.Write` chunking loop -/

/-- One iteration of the `Conn.Write` loop (src/riverrun.go lines
369-387): `size` is the value returned by `rr.nextLength()` for this
iteration and `ok` records whether the transport write
`rr.Conn.Write(toWire[:s])` succeeds. -/
structure WriteStep where
  size : Nat
  ok : Bool
deriving DecidableEq

/-- The `Conn.Write` loop: each iteration reads up to `size` bytes from
the front of the frame buffer into a chunk and writes it to the transport;
an empty buffer makes `frameBuf.Read` return `io.EOF`, exiting the loop
with no error; a failed transport write aborts the loop with the error.
The result is the list of chunks successfully written and a flag that is
`true` exactly when the loop exited via EOF (no transport error); `none`
means the supplied step list ended before the loop did. -/
def connWriteLoop : List WriteStep → List Nat → Option (List (List Nat) × Bool)
  | _, [] => some ([], true)
  | [], _ :: _ => none
  | st :: rest, b :: bs =>
      let chunk := (b :: bs).take st.size
      if st.ok then
        match connWriteLoop rest ((b :: bs).drop st.size) with
        | none => none
        | some (cs, succ) => some (chunk :: cs, succ)
      else some ([], false)

/-- `Conn.Write` (src/riverrun.go lines 358-393): `Chop` encodes the
caller's bytes `b` into the frame buffer and yields the returned count `n`
before any transport write; the loop then writes the buffer out in chunks.
`chop` abstracts `rr.Encoder.Chop` (framing scaffold, returning the
encoded frame buffer and the count). -/
def connWrite (chop : List Nat → List Nat × Nat) (steps : List WriteStep) (b : List Nat) :
    Option (Nat × List (List Nat) × Bool) :=
  match connWriteLoop steps (chop b).1 with
  | none => none
  | some (sent, succ) => some ((chop b).2, sent, succ)

/-- Every run of the `Conn.Write` loop sends a prefix of the frame buffer,
in order; a run that exits via EOF (`succ = true`) has sent exactly the
whole buffer. -/
theorem connWriteLoop_spec :
    ∀ (steps : List WriteStep) (buf : List Nat) (sent : List (List Nat)) (succ : Bool),
      connWriteLoop steps buf = some (sent, succ) →
      (∃ k, sent.flatten = buf.take k) ∧ (succ = true → sent.flatten = buf) := by
  intro steps
  induction steps with
  | nil =>
      intro buf sent succ h
      cases buf with
      | nil =>
          simp only [connWriteLoop, Option.some.injEq, Prod.mk.injEq] at h
          refine ⟨⟨0, ?_⟩, fun _ => ?_⟩ <;> simp [← h.1]
      | cons b bs => exact absurd h (by simp [connWriteLoop])
  | cons st rest ih =>
      intro buf sent succ h
      cases buf with
      | nil =>
          simp only [connWriteLoop, Option.some.injEq, Prod.mk.injEq] at h
          refine ⟨⟨0, ?_⟩, fun _ => ?_⟩ <;> simp [← h.1]
      | cons b bs =>
          rw [connWriteLoop] at h
          by_cases hok : st.ok
          · rw [if_pos hok] at h
            cases hrec : connWriteLoop rest ((b :: bs).drop st.size) with
            | none => rw [hrec] at h; exact absurd h (by simp)
            | some p =>
                obtain ⟨cs, succ'⟩ := p
                rw [hrec] at h
                simp only [Option.some.injEq, Prod.mk.injEq] at h
                obtain ⟨hsent, hsucc⟩ := h
                obtain ⟨⟨k, hk⟩, hfull⟩ := ih ((b :: bs).drop st.size) cs succ' hrec
                rw [← hsent]
                constructor
                · refine ⟨st.size + k, ?_⟩
                  rw [List.flatten_cons, hk, List.take_add]
                · intro hs
                  rw [List.flatten_cons, hfull (hsucc.trans hs), List.take_append_drop]
          · rw [if_neg hok] at h
            simp only [Option.some.injEq, Prod.mk.injEq] at h
            obtain ⟨hsent, hsucc⟩ := h
            rw [← hsent]
            exact ⟨⟨0, by simp⟩, fun hs => absurd (hsucc.trans hs) (by simp)⟩

/-- C7: for a single `Conn.Write` call in which every transport write
succeeds (the loop exits via EOF with no error), the chunks — each sized
by a `nextLength` draw — are issued in order and their concatenation is
exactly the encoded frame buffer produced by the Encoder: no byte is
dropped or duplicated. -/
theorem Conn_Write_chunks_exact (chop : List Nat → List Nat × Nat)
    (steps : List WriteStep) (b : List Nat) (n : Nat) (chunks : List (List Nat))
    (h : connWrite chop steps b = some (n, chunks, true)) :
    chunks.flatten = (chop b).1 := by
  unfold connWrite at h
  cases hrec : connWriteLoop steps (chop b).1 with
  | none => rw [hrec] at h; exact absurd h (by simp)
  | some p =>
      obtain ⟨sent, succ⟩ := p
      rw [hrec] at h
      simp only [Option.some.injEq, Prod.mk.injEq] at h
      obtain ⟨-, hsent, hsucc⟩ := h
      rw [← hsent]
      exact (connWriteLoop_spec steps (chop b).1 sent succ hrec).2 hsucc

/-- Witness for C7: a 6-byte frame written in chunk sizes 4 and 4 produces
the chunks `[1,2,3,4]` and `[5,6]`, whose concatenation is the frame. -/
theorem Conn_Write_chunks_exact_witness :
    connWrite (fun b => (b ++ b, b.length)) [⟨4, true⟩, ⟨4, true⟩] [1, 2, 3] =
      some (3, [[1, 2, 3, 1], [2, 3]], true) ∧
    ([[1, 2, 3, 1], [2, 3]] : List (List Nat)).flatten = ((fun b => (b ++ b, b.length)) [1, 2, 3]).1 :=
  ⟨by decide,
    Conn_Write_chunks_exact (fun b => (b ++ b, b.length)) [⟨4, true⟩, ⟨4, true⟩] [1, 2, 3] 3
      [[1, 2, 3, 1], [2, 3]] (by decide)⟩

/-- C10: `Conn.Write` computes its returned count solely from
`Encoder.Chop`, before any transport write: a run in which some transport
write fails returns the very same `n` as a fully successful run of the
same call, the error is reported, the chunks written before the failure
remain sent (a prefix of the frame buffer — the operation is not atomic on
error), while the successful run sends the whole frame. -/
theorem Conn_Write_error_semantics (chop : List Nat → List Nat × Nat)
    (steps fullSteps : List WriteStep) (b : List Nat) (n n' : Nat)
    (sent sent' : List (List Nat))
    (hfail : connWrite chop steps b = some (n, sent, false))
    (hok : connWrite chop fullSteps b = some (n', sent', true)) :
    n = (chop b).2 ∧ n = n' ∧ (∃ k, sent.flatten = ((chop b).1).take k) ∧
      sent'.flatten = (chop b).1 := by
  unfold connWrite at hfail hok
  cases hrec : connWriteLoop steps (chop b).1 with
  | none => rw [hrec] at hfail; exact absurd hfail (by simp)
  | some p =>
      obtain ⟨s0, f0⟩ := p
      rw [hrec] at hfail
      simp only [Option.some.injEq, Prod.mk.injEq] at hfail
      obtain ⟨hn, hs0, hf0⟩ := hfail
      cases hrec' : connWriteLoop fullSteps (chop b).1 with
      | none => rw [hrec'] at hok; exact absurd hok (by simp)
      | some p' =>
          obtain ⟨s1, f1⟩ := p'
          rw [hrec'] at hok
          simp only [Option.some.injEq, Prod.mk.injEq] at hok
          obtain ⟨hn', hs1, hf1⟩ := hok
          rw [← hs0, ← hs1]
          refine ⟨hn.symm, by omega, (connWriteLoop_spec steps (chop b).1 s0 f0 hrec).1, ?_⟩
          exact (connWriteLoop_spec fullSteps (chop b).1 s1 f1 hrec').2 hf1

/-- Witness for C10: the same call once with the second transport write
failing (sent `[1,2,3,4]` only, error reported, n = 3) and once fully
successful (whole frame sent, same n = 3). -/
theorem Conn_Write_error_semantics_witness :
    connWrite (fun b => (b ++ b, b.length)) [⟨4, true⟩, ⟨4, false⟩] [1, 2, 3] =
      some (3, [[1, 2, 3, 1]], false) ∧
    connWrite (fun b => (b ++ b, b.length)) [⟨4, true⟩, ⟨4, true⟩] [1, 2, 3] =
      some (3, [[1, 2, 3, 1], [2, 3]], true) ∧
    (3 = ((fun b => (b ++ b, b.length)) [1, 2, 3] : List Nat × Nat).2 ∧ 3 = 3 ∧
      (∃ k, ([[1, 2, 3, 1]] : List (List Nat)).flatten =
        (((fun b => (b ++ b, b.length)) [1, 2, 3] : List Nat × Nat).1).take k) ∧
      ([[1, 2, 3, 1], [2, 3]] : List (List Nat)).flatten =
        ((fun b => (b ++ b, b.length)) [1, 2, 3] : List Nat × Nat).1) :=
  ⟨by decide, by decide,
    Conn_Write_error_semantics (fun b => (b ++ b, b.length)) [⟨4, true⟩, ⟨4, false⟩]
      [⟨4, true⟩, ⟨4, true⟩] [1, 2, 3] 3 3 [[1, 2, 3, 1]] [[1, 2, 3, 1], [2, 3]]
      (by decide) (by decide)⟩

/-! ### Connection construction: `get_rng`, `get_mss`, `NewConn` -/

/-- Go's `int(x)` conversion for the nonnegative float values that arise
here, modelled on exact rationals (truncation towards zero coincides with
the floor on nonnegative values). -/
def go_int (q : ℚ) : ℤ := ⌊q⌋

/-- `get_mss` (src/riverrun.go lines 47-53): `int(rng.Float64()*800) +
600`, where `u` models the `rng.Float64()` draw, a value in `[0, 1)`
produced by the seed-derived generator. -/
def get_mss (u : ℚ) : ℤ := go_int (u * 800) + 600

/-- The jitter assignment `rr.mss_dev = rng.Float64() * 4`
(src/riverrun.go line 120). -/
def NewConn_mss_dev (u : ℚ) : ℚ := u * 4

/-- C8: the chunking parameters are derived from the shared seed at
connection construction (`mss_max` at line 116 from `get_mss`, `mss_dev`
at line 120), with `mss_max` always in the range 600–1400 bytes and
`mss_dev` always in the range 0–4, for any generator draws in `[0, 1)`. -/
theorem get_mss_mss_dev_range (u v : ℚ) (hu0 : 0 ≤ u) (hu1 : u < 1)
    (hv0 : 0 ≤ v) (hv1 : v < 1) :
    (600 ≤ get_mss u ∧ get_mss u ≤ 1400) ∧
    (0 ≤ NewConn_mss_dev v ∧ NewConn_mss_dev v ≤ 4) := by
  have h800 : (0 : ℚ) ≤ u * 800 := by positivity
  have h800' : u * 800 < 800 := by nlinarith
  have hfl0 : (0 : ℤ) ≤ ⌊u * 800⌋ := Int.floor_nonneg.mpr h800
  have hfl1 : ⌊u * 800⌋ < 800 := Int.floor_lt.mpr (by exact_mod_cast h800')
  refine ⟨⟨?_, ?_⟩, ?_, ?_⟩
  · simp only [get_mss, go_int]; omega
  · simp only [get_mss, go_int]; omega
  · simp only [NewConn_mss_dev]; positivity
  · simp only [NewConn_mss_dev]; nlinarith

/-- Witness for C8 at the draws `u = 1/2`, `v = 1/4`: `mss_max = 1000`
and `mss_dev = 1`. -/
theorem get_mss_mss_dev_range_witness :
    (600 ≤ get_mss (1 / 2) ∧ get_mss (1 / 2) ≤ 1400) ∧
    (0 ≤ NewConn_mss_dev (1 / 4) ∧ NewConn_mss_dev (1 / 4) ≤ 4) :=
  get_mss_mss_dev_range (1 / 2) (1 / 4) (by norm_num) (by norm_num) (by norm_num) (by norm_num)

/-- How the opening of `NewConn` (src/riverrun.go lines 55-64) terminates,
as far as the DRBG/rng setup is concerned. -/
inductive NewConnOutcome where
  | proceeded
  | errReturn
  | nilPanic
deriving DecidableEq

/-- `get_rng` (src/riverrun.go lines 39-45): construct the hash DRBG from
the seed — reporting its error — and wrap it in `rand.New`.  The DRBG
constructor (`common/drbg`, not under `src/`) is abstracted as
`drbgNew`. -/
def get_rng {Seed Drbg : Type} (drbgNew : Seed → Option Drbg) (seed : Seed) : Option Drbg :=
  match drbgNew seed with
  | none => none
  | some xdrbg => some xdrbg

/-- The rng phase of `NewConn` (src/riverrun.go lines 57-61): the error
returned by `get_rng` is never checked — `err` is overwritten by the
`aes.NewCipher` assignment at line 61 before any check — and
`rng.Read(key)` at line 60 runs unconditionally, which on a failed
`get_rng` dereferences the returned nil `*rand.Rand`. -/
def NewConn_rngPhase {Seed Drbg : Type} (drbgNew : Seed → Option Drbg) (seed : Seed) :
    NewConnOutcome :=
  match get_rng drbgNew seed with
  | none => NewConnOutcome.nilPanic
  | some _ => NewConnOutcome.proceeded

/-- C9: for any input on which DRBG construction fails, `NewConn` crashes
with a nil-pointer dereference at `rng.Read(key)` instead of returning the
construction error to the caller. -/
theorem NewConn_nil_deref_on_drbg_failure {Seed Drbg : Type}
    (drbgNew : Seed → Option Drbg) (seed : Seed) (h : drbgNew seed = none) :
    NewConn_rngPhase drbgNew seed = NewConnOutcome.nilPanic ∧
    NewConn_rngPhase drbgNew seed ≠ NewConnOutcome.errReturn := by
  have : NewConn_rngPhase drbgNew seed = NewConnOutcome.nilPanic := by
    simp [NewConn_rngPhase, get_rng, h]
  exact ⟨this, by simp [this]⟩

/-- Witness for C9 with a DRBG constructor that fails on every seed. -/
theorem NewConn_nil_deref_on_drbg_failure_witness :
    NewConn_rngPhase (fun _ : Unit => (none : Option Unit)) () = NewConnOutcome.nilPanic ∧
    NewConn_rngPhase (fun _ : Unit => (none : Option Unit)) () ≠ NewConnOutcome.errReturn :=
  NewConn_nil_deref_on_drbg_failure (fun _ : Unit => (none : Option Unit)) () rfl

end Riverrun
